import Mathlib

/-!  Shallow embedding of the semchunk-rs core (src/splitter.rs, src/chunker.rs).

Texts are lists of characters.  Rust byte lengths (`str::len`) are modelled by
the UTF-8 sizes computed from the characters.  The `f64` running ratio estimate
of `merge_splits` is modelled as an exact numerator/denominator pair of
naturals (`5.0` becomes `5/1`, a later update `n_tokens / cum` becomes the pair
`(n_tokens, cum)`); every concrete run proved below only exercises values that
are exactly representable in `f64`, where the two agree.  The Rust code has no
fuel; divergence is modelled by a fuel parameter threaded through the recursion
and the assembly loop: a run that yields `ChunkErr.fuel` for every fuel amount
diverges.  A Rust panic (a failed `unwrap` or out-of-bounds index) is modelled
by `Option.none` from `split_text` and by `ChunkErr.crash` from the chunker. -/

/-- UTF-8 encoded size in bytes of one character, as `str::len` counts it. -/
def charUtf8Size (c : Char) : Nat :=
  if c.toNat < 128 then 1
  else if c.toNat < 2048 then 2
  else if c.toNat < 65536 then 3
  else 4

/-- Byte length of a text, Rust `str::len`. -/
def utf8Len (s : List Char) : Nat := (s.map charUtf8Size).sum

/-- Character class of the regex `[\n\r]`. -/
def isNlCr (c : Char) : Bool := c = '\n' || c = '\r'

/-- Character class of the `regex` crate's `\s` (Unicode White_Space). -/
def isRegexSpace (c : Char) : Bool :=
  (9 ≤ c.toNat && c.toNat ≤ 13) || c.toNat = 32 || c.toNat = 133 || c.toNat = 160 ||
  c.toNat = 5760 || (8192 ≤ c.toNat && c.toNat ≤ 8202) || c.toNat = 8232 ||
  c.toNat = 8233 || c.toNat = 8239 || c.toNat = 8287 || c.toNat = 12288

/-- The fixed priority list of src/splitter.rs (sentence terminators, clause
separators, interrupters, word joiners).  `Char.ofNat 39/34/96` are the
apostrophe, the double quote and the backtick. -/
def NON_WHITESPACE_SEMANTIC_SEPARATORS : List Char :=
  ['.', '?', '!', '*',
   ';', ',', '(', ')', '[', ']', '“', '”', '‘', '’', Char.ofNat 39, Char.ofNat 34, Char.ofNat 96,
   ':', '—', '…',
   '/', '\\', '–', '&', '-']

/-- Rust `Vec<&str>::join(sep)`: pieces concatenated with `sep` between them. -/
def joinSep (sep : List Char) : List (List Char) → List Char
  | [] => []
  | [x] => x
  | x :: y :: xs => x ++ sep ++ joinSep sep (y :: xs)

/-- Does `text` start with `sep`? -/
def seqStartsWith : List Char → List Char → Bool
  | [], _ => true
  | _ :: _, [] => false
  | a :: as, b :: bs => a = b && seqStartsWith as bs

/-- Leftmost index at which `sep` occurs in `text` (Rust `str::find`). -/
def findSubIdx (sep : List Char) : List Char → Option Nat
  | [] => if seqStartsWith sep [] then some 0 else none
  | c :: rest =>
    if seqStartsWith sep (c :: rest) then some 0
    else (findSubIdx sep rest).map (· + 1)

/-- Worker for `splitOnSeq`; the fuel is an upper bound on the number of
pieces, `text.length + 1` always suffices for a non-empty separator. -/
def splitGo (sep : List Char) : Nat → List Char → List (List Char)
  | 0, text => [text]
  | fuel+1, text =>
    match findSubIdx sep text with
    | none => [text]
    | some i => text.take i :: splitGo sep fuel (text.drop (i + sep.length))

/-- Rust `str::split(sep)` for a non-empty separator: the pieces between the
leftmost non-overlapping occurrences, empty pieces included. -/
def splitOnSeq (sep : List Char) (text : List Char) : List (List Char) :=
  if sep.isEmpty then [text] else splitGo sep (text.length + 1) text

/-- Worker for `runsOf`, accumulating the current run. -/
def runsAux (p : Char → Bool) : List Char → List Char → List (List Char)
  | acc, [] => if acc.isEmpty then [] else [acc]
  | acc, c :: rest =>
    if p c then runsAux p (acc ++ [c]) rest
    else if acc.isEmpty then runsAux p [] rest
    else acc :: runsAux p [] rest

/-- Maximal runs of characters satisfying `p`, in order: the matches of the
regex `p+` under `find_iter`. -/
def runsOf (p : Char → Bool) (s : List Char) : List (List Char) := runsAux p [] s

/-- Rust `Iterator::max_by_key`: the maximum, keeping the LAST element among
equally maximal ones. -/
def maxByKeyLast (f : List Char → Nat) : List (List Char) → Option (List Char)
  | [] => none
  | x :: xs =>
    match maxByKeyLast f xs with
    | none => some x
    | some b => some (if f x ≤ f b then b else x)

/-- `bisection::bisect_left` on a sorted list: the leftmost index whose element
is at least the target (the list length if there is none). -/
def bisectLeft (l : List Nat) (t : Nat) : Nat :=
  (List.findIdx? (fun x => t ≤ x) l).getD l.length

/-- The cumulative byte lengths of the splits (the `scan` in `merge_splits`). -/
def cumLens (splits : List (List Char)) : List Nat :=
  (List.scanl (fun a b => a + b) 0 (splits.map utf8Len)).tail

/-- `Splitter::split_text`.  `none` models a panic (the failed `unwrap` in the
degenerate character-split branch, reachable for multi-byte text). -/
def split_text (text : List Char) : Option (List Char × Bool × List (List Char)) :=
  if text.any isNlCr then
    match maxByKeyLast utf8Len (runsOf isNlCr text) with
    | none => none
    | some sep => some (sep, true, splitOnSeq sep text)
  else if text.contains '\t' then
    match maxByKeyLast utf8Len ((text.filter (fun c => c = '\t')).map (fun c => [c])) with
    | none => none
    | some sep => some (sep, true, splitOnSeq sep text)
  else if text.any isRegexSpace then
    match maxByKeyLast utf8Len ((text.filter isRegexSpace).map (fun c => [c])) with
    | none => none
    | some sep => some (sep, true, splitOnSeq sep text)
  else
    match NON_WHITESPACE_SEMANTIC_SEPARATORS.find? (fun c => text.contains c) with
    | some c => some ([c], false, splitOnSeq [c] text)
    | none =>
      let v : List (List Char) := [[]] ++ text.map (fun c => [c]) ++ [[]]
      if utf8Len text + 1 ≤ v.length then some ([], true, (v.drop 1).take (utf8Len text))
      else none

/-- The chunker configuration: `chunk_size` and the boxed `token_counter`. -/
structure Chunker where
  chunk_size : Nat
  token_counter : List Char → Nat

/-- `Chunker::new`: stores the fields as given, with no validation. -/
def Chunker.new (chunk_size : Nat) (token_counter : List Char → Nat) : Chunker :=
  { chunk_size := chunk_size, token_counter := token_counter }

/-- The `while low < high` loop of `Chunker::merge_splits`.  `num/den` is the
`tokens_per_split` ratio.  The loop window shrinks every iteration, so a fuel
of `high - low` at entry always suffices; with the fuel exhausted `low ≥ high`
holds and returning `low` coincides with the loop exit. -/
def mergeLoopF (c : Chunker) (cum : List Nat) (splits : List (List Char)) (sep : List Char) :
    Nat → Nat → Nat → Nat → Nat → Nat
  | 0, low, _, _, _ => low
  | fuel+1, low, high, num, den =>
    if low < high then
      let target := c.chunk_size * num / den
      let inc := bisectLeft ((cum.drop low).take (high - low)) target
      let est := min (low + inc) (high - 1)
      let n := c.token_counter (joinSep sep (splits.take est))
      let num2 := if 0 < n ∧ 0 < cum.getD est 0 then n else num
      let den2 := if 0 < n ∧ 0 < cum.getD est 0 then cum.getD est 0 else den
      if c.chunk_size < n then
        mergeLoopF c cum splits sep fuel low est num2 den2
      else if n = c.chunk_size then est
      else
        mergeLoopF c cum splits sep fuel (est + 1) high num2 den2
    else low

/-- `Chunker::merge_splits`: the adaptive search; returns the consumed count
and the join of that many leading splits. -/
def Chunker.merge_splits (c : Chunker) (splits : List (List Char)) (sep : List Char) :
    Nat × List Char :=
  let low := mergeLoopF c (cumLens splits) splits sep (splits.length + 1) 0 splits.length 5 1
  (low, joinSep sep (splits.take low))

/-- Failure modes of a chunk run: `crash` is a Rust panic, `fuel` is fuel
exhaustion (a result of `fuel` for every fuel amount is divergence). -/
inductive ChunkErr where
  | crash : ChunkErr
  | fuel : ChunkErr
deriving DecidableEq

/-- A pending computation of `_chunk`: either a fresh call on a text, or the
assembly loop over the splits at position `i` with accumulated `acc`. -/
inductive Call where
  | top : List Char → Nat → Call
  | go : List Char → Bool → List (List Char) → Nat → Nat → List (List Char) → Call

/-- The recursion of `Chunker::_chunk`, fuelled.  `Call.top text d` is the
entry of `_chunk(text, d)`; `Call.go sep ws splits d i acc` is the state of the
`while i < text_splits.len()` loop.  One unit of fuel is spent per loop
iteration and per recursive `_chunk` entry. -/
def chunkRun (c : Chunker) : Nat → Call → Except ChunkErr (List (List Char))
  | 0, .top _ _ => .error .fuel
  | 0, .go _ _ splits _ i acc => if i < splits.length then .error .fuel else .ok acc
  | fuel+1, .top text d =>
    match split_text text with
    | none => .error .crash
    | some (sep, ws, splits) =>
      match chunkRun c fuel (.go sep ws splits d 0 []) with
      | .error e => .error e
      | .ok chunks => .ok (if 0 < d then chunks.filter (fun s => !s.isEmpty) else chunks)
  | fuel+1, .go sep ws splits d i acc =>
    if i < splits.length then
      match
        (if c.chunk_size < c.token_counter (splits.getD i []) then
          match chunkRun c fuel (.top (splits.getD i []) (d + 1)) with
          | .error e => .error e
          | .ok sub => .ok (acc ++ sub, i + 1)
        else
          .ok (acc ++ [(c.merge_splits (splits.drop i) sep).2],
               i + (c.merge_splits (splits.drop i) sep).1) :
          Except ChunkErr (List (List Char) × Nat)) with
      | .error e => .error e
      | .ok (acc2, i2) =>
        if ws = false ∧ i2 < splits.length then
          match acc2.getLast? with
          | none => .error .crash
          | some last =>
            if c.token_counter (last ++ sep) ≤ c.chunk_size then
              chunkRun c fuel (.go sep ws splits d i2 (acc2.dropLast ++ [last ++ sep]))
            else
              chunkRun c fuel (.go sep ws splits d i2 (acc2 ++ [sep]))
        else chunkRun c fuel (.go sep ws splits d i2 acc2)
    else .ok acc

/-- `Chunker::_chunk(text, recursion_depth)` with the given fuel. -/
def Chunker.chunkAt (c : Chunker) (fuel : Nat) (text : List Char) (recursion_depth : Nat) :
    Except ChunkErr (List (List Char)) :=
  chunkRun c fuel (.top text recursion_depth)

/-- `Chunker::chunk(text)`: the public entry, `_chunk(text, 0)`. -/
def Chunker.chunk (c : Chunker) (fuel : Nat) (text : List Char) :
    Except ChunkErr (List (List Char)) :=
  c.chunkAt fuel text 0

/-- Modelled from the spec (§4.3/§8): the result of an exhaustive linear probe
of every prefix length — the largest `n` with at most `splits.length` such that
the first `n` splits joined by the separator count at most `chunk_size`
tokens. -/
def specLinearProbe (c : Chunker) (splits : List (List Char)) (sep : List Char) : Nat :=
  Nat.findGreatest (fun n => c.token_counter (joinSep sep (splits.take n)) ≤ c.chunk_size)
    splits.length

/-- Modelled from the spec (§4.1): `max_by_key` keeping the FIRST element among
equally maximal ones, the tie-breaking rule the spec asserts. -/
def firstMaxByKey (f : List Char → Nat) : List (List Char) → Option (List Char)
  | [] => none
  | x :: xs =>
    match firstMaxByKey f xs with
    | none => some x
    | some b => some (if f x < f b then b else x)

/-- Modelled from the spec (§4.1 case 1): the first-occurring maximal run of
newline/carriage-return characters. -/
def specFirstMaxRun (text : List Char) : Option (List Char) :=
  firstMaxByKey utf8Len (runsOf isNlCr text)

/- Concrete token counters and chunkers used by the counterexample runs. -/

/-- Counter mapping a text to twice the number of positions where a space is
followed by another character; every single character counts 0, and the counter
is monotone under concatenation on the right.  It is admissible for the spec
(deterministic, non-negative). -/
def ctrSpaces2 : List Char → Nat :=
  fun s => 2 * ((s.zip s.tail).filter (fun p => p.1 = ' ')).length

/-- Chunker with budget 1 and the doubled-space-pair counter. -/
def chunkerA : Chunker := Chunker.new 1 ctrSpaces2

/-- Chunker with budget 1 and the constant counter 2 (every text, even a single
character, counts 2 tokens). -/
def chunkerB : Chunker := Chunker.new 1 (fun _ => 2)

/-- Chunker with budget 1 and the byte-length counter (Rust `|s| s.len()`). -/
def chunkerLen1 : Chunker := Chunker.new 1 utf8Len

/-- Chunker built with the invalid budget 0 and the byte-length counter. -/
def chunkerZero : Chunker := Chunker.new 0 utf8Len

/-- Every character of `s` is whitespace in the sense of the regex crate. -/
def wsOnly (s : List Char) : Prop := ∀ ch ∈ s, isRegexSpace ch = true

/-- No character of `s` is whitespace in the sense of the regex crate. -/
def wsFree (s : List Char) : Prop := ∀ ch ∈ s, isRegexSpace ch = false

/-- `Decomp t cs` says the text `t` is exactly the chunks `cs` in order, with
only whitespace filler before each chunk and after the last one — i.e. `t` is
reproduced from `cs` by folding separator material back in at the chunk
boundaries. -/
inductive Decomp : List Char → List (List Char) → Prop where
  | nil : ∀ {pre : List Char}, wsOnly pre → Decomp pre []
  | cons : ∀ {pre chunk : List Char} {t : List Char} {cs : List (List Char)},
      wsOnly pre → Decomp t cs → Decomp (pre ++ (chunk ++ t)) (chunk :: cs)

/-- Claim C1: the claim states that `merge_splits`, on a slice whose first
element fits the budget, returns the largest prefix length whose join counts at
most `chunk_size` tokens — the exhaustive linear probe's value.  The code
violates this: it measures `splits[..est_midpoint]` (exclusive) yet advances
`low` to `est_midpoint + 1` on a small count, so the returned prefix is never
measured.  With budget 1, the doubled-space counter, splits `["a", "b"]` and
separator `" "`, the first element counts 0 ≤ 1 tokens, the linear probe's
largest fitting prefix length is 1, yet `merge_splits` returns 2 with the
over-budget text `"a b"` (2 tokens). -/
theorem C1_merge_splits_not_linear_probe :
    chunkerA.merge_splits ["a".toList, "b".toList] [' '] = (2, "a b".toList) ∧
    chunkerA.token_counter "a".toList ≤ chunkerA.chunk_size ∧
    specLinearProbe chunkerA ["a".toList, "b".toList] [' '] = 1 ∧
    chunkerA.chunk_size < chunkerA.token_counter "a b".toList :=
  ⟨rfl, by decide, by decide, by decide⟩

/-- Claim C2: the claim states that whenever no single character alone exceeds
`chunk_size`, every produced chunk counts at most `chunk_size` tokens.  The
code violates it (through the `merge_splits` defect of C1): with budget 1 and
the doubled-space counter, every single character of `"a b"` counts 0 ≤ 1
tokens, yet `chunk` returns the single chunk `"a b"` counting 2 > 1 tokens. -/
theorem C2_budget_property_violated :
    chunkerA.chunk 10 "a b".toList = .ok ["a b".toList] ∧
    (∀ ch ∈ "a b".toList, chunkerA.token_counter [ch] ≤ chunkerA.chunk_size) ∧
    chunkerA.chunk_size < chunkerA.token_counter "a b".toList :=
  ⟨rfl, by decide, by decide⟩

/-- Claim C4: the claim states that no panic branch of `split_text` or `chunk`
is reachable, explicitly including multi-byte text with no separator present.
The code violates it: the degenerate branch slices `1..text.len()+1` with the
BYTE length of a per-CHARACTER vector, so `"éé"` (2 chars, 4 bytes) makes the
`unwrap` panic; the model returns `none` and the chunker propagates the
crash. -/
theorem C4_split_text_panics_on_multibyte :
    split_text "éé".toList = none ∧ chunkerLen1.chunk 5 "éé".toList = .error .crash :=
  ⟨rfl, rfl⟩

/-- Claim C6 counterexample: on `"a\n\rb\r\nc"` the two maximal newline runs
`"\n\r"` and `"\r\n"` tie at length 2; the claim says the FIRST one (`"\n\r"`,
the spec-modelled `specFirstMaxRun`) is chosen, but `max_by_key` keeps the last
maximal element, so the code chooses `"\r\n"`. -/
theorem C6_counterexample_tie_goes_last :
    (split_text "a\n\rb\r\nc".toList).map (fun r => r.1) = some "\r\n".toList ∧
    specFirstMaxRun "a\n\rb\r\nc".toList = some "\n\r".toList ∧
    "\r\n".toList ≠ "\n\r".toList :=
  ⟨rfl, rfl, by decide⟩

/-- Claim C7 counterexample: on `"a\t\tb"` (no newline) the claim says the
separator is the longest tab run `"\t\t"`, but the tab pattern is `\t`, whose
matches are single tabs, so the code splits on a single `"\t"` and yields
`["a", "", "b"]` rather than `["a", "b"]`. -/
theorem C7_counterexample_single_tab :
    split_text "a\t\tb".toList = some (['\t'], true, ["a".toList, [], "b".toList]) ∧
    ['\t', '\t'] ∈ runsOf (fun c => c = '\t') "a\t\tb".toList ∧
    utf8Len ['\t'] < utf8Len ['\t', '\t'] :=
  ⟨rfl, by decide, by decide⟩

/-- Claim C10: on the empty string the splitter's degenerate branch yields zero
sub-spans, the assembly loop emits no chunks, and `chunk` returns the empty
list, for every chunker and every positive fuel. -/
theorem C10_empty_input_empty_output :
    (∀ (c : Chunker) (fuel : Nat), c.chunk (fuel + 1) [] = .ok []) ∧
    split_text [] = some ([], true, []) := by
  refine ⟨fun c fuel => ?_, rfl⟩
  show chunkRun c (fuel + 1) (.top [] 0) = .ok []
  cases fuel <;> rfl

/-- Auxiliary for claim C3: with the constant-2 counter and budget 1, both the
entry on the one-character text and its assembly loop run out of any fuel: the
recursion re-enters itself on the same span. -/
theorem chunkB_x_diverges : ∀ fuel : Nat,
    (∀ d, chunkRun chunkerB fuel (.top ['x'] d) = .error .fuel) ∧
    (∀ d acc, chunkRun chunkerB fuel (.go [] true [['x']] d 0 acc) = .error .fuel) := by
  intro fuel
  induction fuel with
  | zero => exact ⟨fun _ => rfl, fun _ _ => by simp [chunkRun]⟩
  | succ n ih =>
    refine ⟨fun d => ?_, fun d acc => ?_⟩
    · have hsp : split_text ['x'] = some ([], true, [['x']]) := rfl
      simp only [chunkRun, hsp, ih.2 d []]
    · have hc : chunkerB.chunk_size < chunkerB.token_counter ([['x']].getD 0 []) := by decide
      simp only [chunkRun, List.length_cons, List.length_nil, Nat.zero_lt_one, if_pos hc,
        if_true]
      have htop : chunkRun chunkerB n (.top (([['x']] : List (List Char)).getD 0 []) (d + 1)) =
          .error .fuel := ih.1 (d + 1)
      rw [htop]
      rfl

/-- Claim C3: the claim states the recursion always terminates, a one-character
span bottoming out as an emitted over-budget chunk.  The code violates it: on
the one-character text `"x"` with a counter under which a single character
counts 2 > 1 tokens, `_chunk` recurses on the SAME one-character span forever —
the run exhausts every fuel amount at every depth. -/
theorem C3_chunk_diverges_on_pathological_counter :
    ∀ fuel d : Nat, chunkerB.chunkAt fuel "x".toList d = .error .fuel :=
  fun fuel d => (chunkB_x_diverges fuel).1 d

/-- Auxiliary for claim C8: with budget 0 and the byte-length counter, the
one-character text diverges at every depth: the single character counts 1 > 0
tokens and `_chunk` re-enters itself on the same span. -/
theorem chunkZero_a_diverges : ∀ fuel : Nat,
    (∀ d, chunkRun chunkerZero fuel (.top ['a'] d) = .error .fuel) ∧
    (∀ d acc, chunkRun chunkerZero fuel (.go [] true [['a']] d 0 acc) = .error .fuel) := by
  intro fuel
  induction fuel with
  | zero => exact ⟨fun _ => rfl, fun _ _ => by simp [chunkRun]⟩
  | succ n ih =>
    refine ⟨fun d => ?_, fun d acc => ?_⟩
    · have hsp : split_text ['a'] = some ([], true, [['a']]) := rfl
      simp only [chunkRun, hsp, ih.2 d []]
    · have hc : chunkerZero.chunk_size < chunkerZero.token_counter ([['a']].getD 0 []) := by
        decide
      simp only [chunkRun, List.length_cons, List.length_nil, Nat.zero_lt_one, if_pos hc,
        if_true]
      have htop : chunkRun chunkerZero n (.top (([['a']] : List (List Char)).getD 0 []) (d + 1)) =
          .error .fuel := ih.1 (d + 1)
      rw [htop]
      rfl

/-- Claim C8: the claim states that `Chunker::new` rejects `chunk_size = 0` with
a configuration error.  The code violates it: `new` stores the fields with no
validation, so the constructor accepts 0 — and the resulting chunker's `chunk`
can indeed loop, as on `"ab"` with the byte-length counter, where the run
exhausts every fuel amount. -/
theorem C8_new_does_not_reject_zero :
    (Chunker.new 0 utf8Len).chunk_size = 0 ∧
    ∀ fuel : Nat, chunkerZero.chunk fuel "ab".toList = .error .fuel := by
  refine ⟨rfl, fun fuel => ?_⟩
  show chunkRun chunkerZero fuel (.top "ab".toList 0) = .error .fuel
  match fuel with
  | 0 => rfl
  | n + 1 =>
    have hsp : split_text "ab".toList = some ([], true, [['a'], ['b']]) := rfl
    simp only [chunkRun, hsp]
    match n, chunkZero_a_diverges n with
    | 0, _ => rfl
    | m + 1, ih =>
      have hc : chunkerZero.chunk_size <
          chunkerZero.token_counter ([['a'], ['b']].getD 0 []) := by decide
      simp only [chunkRun, List.length_cons, List.length_nil, if_pos hc]
      have htop : chunkRun chunkerZero m
          (.top (([['a'], ['b']] : List (List Char)).getD 0 []) (0 + 1)) =
          .error .fuel := (chunkZero_a_diverges m).1 (0 + 1)
      rw [htop]
      rfl

/-- Claim C9: at recursion depth `d > 0` the returned chunk list of `_chunk`
never contains an empty string (the final filter removes them), while at depth
0 empty chunks are retained: with budget 1 and the byte-length counter,
`chunk "a."` returns `["a", ".", ""]`, keeping the empty chunk produced by the
trailing separator. -/
theorem C9_empty_chunk_filtering :
    (∀ (c : Chunker) (fuel : Nat) (text : List Char) (d : Nat) (cs : List (List Char)),
        0 < d → chunkRun c fuel (.top text d) = .ok cs → ∀ s ∈ cs, s ≠ []) ∧
    chunkerLen1.chunk 20 "a.".toList = .ok ["a".toList, ".".toList, []] := by
  constructor
  · intro c fuel text d cs hd h s hs
    match fuel with
    | 0 => exact absurd h (by simp [chunkRun])
    | n + 1 =>
      simp only [chunkRun] at h
      cases hsp : split_text text with
      | none => rw [hsp] at h; exact absurd h (by simp)
      | some val =>
        obtain ⟨sep, ws, splits⟩ := val
        rw [hsp] at h
        dsimp only at h
        cases hrun : chunkRun c n (.go sep ws splits d 0 []) with
        | error e => rw [hrun] at h; exact absurd h (by simp)
        | ok l =>
          rw [hrun] at h
          dsimp only at h
          rw [if_pos hd] at h
          have hcs : cs = l.filter (fun t => !t.isEmpty) := by
            injection h with h2
            exact h2.symm
          subst hcs
          rcases List.mem_filter.1 hs with ⟨_, hne⟩
          intro hnil
          subst hnil
          simp at hne
  · rfl

/-- Witness for claim C9: the general part applied to the concrete depth-1 run
of `"a."`, whose result `["a", "."]` indeed contains no empty chunk. -/
theorem C9_witness : ∀ s ∈ ["a".toList, ".".toList], s ≠ [] :=
  C9_empty_chunk_filtering.1 chunkerLen1 20 "a.".toList 1 ["a".toList, ".".toList]
    (by decide) rfl

/-- Byte length of a one-character text. -/
theorem utf8Len_singleton (c : Char) : utf8Len [c] = charUtf8Size c := by
  simp [utf8Len]

/-- `maxByKeyLast` returns `none` exactly on the empty list. -/
theorem maxByKeyLast_eq_none {f : List Char → Nat} {l : List (List Char)} :
    maxByKeyLast f l = none ↔ l = [] := by
  cases l with
  | nil => simp [maxByKeyLast]
  | cons x xs =>
    simp only [maxByKeyLast]
    cases maxByKeyLast f xs <;> simp

/-- The element chosen by `maxByKeyLast` belongs to the list. -/
theorem maxByKeyLast_mem {f : List Char → Nat} :
    ∀ {l : List (List Char)} {m : List Char}, maxByKeyLast f l = some m → m ∈ l := by
  intro l
  induction l with
  | nil => intro m h; simp [maxByKeyLast] at h
  | cons x xs ih =>
    intro m h
    simp only [maxByKeyLast] at h
    cases hx : maxByKeyLast f xs with
    | none =>
      rw [hx] at h
      injection h with h
      subst h
      exact List.mem_cons_self x xs
    | some b =>
      rw [hx] at h
      injection h with h
      by_cases hle : f x ≤ f b
      · rw [if_pos hle] at h
        subst h
        exact List.mem_cons_of_mem x (ih hx)
      · rw [if_neg hle] at h
        subst h
        exact List.mem_cons_self x xs

/-- The element chosen by `maxByKeyLast` has a maximal key. -/
theorem maxByKeyLast_le {f : List Char → Nat} :
    ∀ {l : List (List Char)} {m : List Char}, maxByKeyLast f l = some m → ∀ y ∈ l, f y ≤ f m := by
  intro l
  induction l with
  | nil => intro m h; simp [maxByKeyLast] at h
  | cons x xs ih =>
    intro m h
    simp only [maxByKeyLast] at h
    cases hx : maxByKeyLast f xs with
    | none =>
      rw [hx] at h
      injection h with h
      subst h
      have hxs : xs = [] := maxByKeyLast_eq_none.1 hx
      subst hxs
      simp
    | some b =>
      rw [hx] at h
      injection h with h
      intro y hy
      rcases List.mem_cons.1 hy with hy | hy
      · subst hy
        by_cases hle : f y ≤ f b
        · rw [if_pos hle] at h; subst h; exact hle
        · rw [if_neg hle] at h; subst h; exact Nat.le_refl _
      · have hyb := ih hx y hy
        by_cases hle : f x ≤ f b
        · rw [if_pos hle] at h; subst h; exact hyb
        · rw [if_neg hle] at h
          subst h
          exact Nat.le_trans hyb (Nat.le_of_not_le hle)

/-- `maxByKeyLast` keeps the LAST element among those with the maximal key. -/
theorem maxByKeyLast_getLast {f : List Char → Nat} :
    ∀ {l : List (List Char)} {m : List Char}, maxByKeyLast f l = some m →
      (l.filter (fun x => f x = f m)).getLast? = some m := by
  intro l
  induction l with
  | nil => intro m h; simp [maxByKeyLast] at h
  | cons x xs ih =>
    intro m h
    simp only [maxByKeyLast] at h
    cases hx : maxByKeyLast f xs with
    | none =>
      rw [hx] at h
      injection h with h
      subst h
      have hxs : xs = [] := maxByKeyLast_eq_none.1 hx
      subst hxs
      simp
    | some b =>
      rw [hx] at h
      injection h with h
      by_cases hle : f x ≤ f b
      · rw [if_pos hle] at h
        subst h
        have hrest := ih hx
        by_cases hfx : f x = f b
        · rw [List.filter_cons_of_pos (by simp [hfx])]
          cases hr : xs.filter (fun t => f t = f b) with
          | nil => rw [hr] at hrest; simp at hrest
          | cons r rs => rw [hr] at hrest; rw [List.getLast?_cons_cons]; exact hrest
        · rw [List.filter_cons_of_neg (by simp [hfx])]
          exact hrest
      · rw [if_neg hle] at h
        subst h
        have hlt : f b < f x := Nat.lt_of_not_le hle
        have hnil : xs.filter (fun t => f t = f x) = [] := by
          rw [List.filter_eq_nil_iff]
          intro a ha
          have := maxByKeyLast_le hx a ha
          simp only [decide_eq_true_eq]
          exact Nat.ne_of_lt (Nat.lt_of_le_of_lt this hlt)
        rw [List.filter_cons_of_pos (by simp), hnil]
        rfl

/-- `runsAux` returns a non-empty list when the accumulator is non-empty or
some remaining character matches. -/
theorem runsAux_ne_nil {p : Char → Bool} :
    ∀ (l acc : List Char), (acc.isEmpty = false ∨ l.any p = true) → runsAux p acc l ≠ [] := by
  intro l
  induction l with
  | nil =>
    intro acc h
    rcases h with h | h
    · simp [runsAux, h]
    · simp at h
  | cons c rest ih =>
    intro acc h
    simp only [runsAux]
    by_cases hp : p c
    · rw [if_pos hp]
      apply ih
      left
      simp
    · rw [if_neg hp]
      by_cases hacc : acc.isEmpty
      · rw [if_pos hacc]
        apply ih
        right
        rcases h with h | h
        · rw [hacc] at h; exact absurd h (by simp)
        · simpa [hp] using h
      · rw [if_neg hacc]
        exact List.cons_ne_nil _ _

/-- A text with a matching character has at least one maximal run. -/
theorem runsOf_ne_nil {p : Char → Bool} {l : List Char} (h : l.any p = true) :
    runsOf p l ≠ [] :=
  runsAux_ne_nil l [] (Or.inr h)

/-- Filtering a list of singleton texts commutes with building the singletons. -/
theorem filter_map_singleton (p : List Char → Bool) (l : List Char) :
    (l.map (fun c => [c])).filter p = (l.filter (fun c => p [c])).map (fun c => [c]) := by
  induction l with
  | nil => rfl
  | cons c cs ih => by_cases h : p [c] <;> simp [h, ih]

/-- Claim C6, amended: for every span with a newline or carriage return, the
separator is a maximal newline/carriage-return run of greatest length, ties
going to the LAST-occurring run (the claim said the first). -/
theorem C6_amended_longest_nlcr_run_last_tie :
    ∀ text : List Char, text.any isNlCr = true →
      ∃ sep : List Char,
        split_text text = some (sep, true, splitOnSeq sep text) ∧
        sep ∈ runsOf isNlCr text ∧
        (∀ r ∈ runsOf isNlCr text, utf8Len r ≤ utf8Len sep) ∧
        ((runsOf isNlCr text).filter (fun r => utf8Len r = utf8Len sep)).getLast? = some sep := by
  intro text h
  cases hm : maxByKeyLast utf8Len (runsOf isNlCr text) with
  | none => exact absurd (maxByKeyLast_eq_none.1 hm) (runsOf_ne_nil h)
  | some sep =>
    refine ⟨sep, ?_, maxByKeyLast_mem hm, maxByKeyLast_le hm, maxByKeyLast_getLast hm⟩
    unfold split_text
    rw [if_pos h, hm]

/-- Witness for the amended claim C6: the general theorem applied to
`"a\n\rb\r\nc"`, a span with two tying maximal runs. -/
theorem C6_amended_witness :
    ∃ sep : List Char,
      split_text "a\n\rb\r\nc".toList = some (sep, true, splitOnSeq sep "a\n\rb\r\nc".toList) ∧
      sep ∈ runsOf isNlCr "a\n\rb\r\nc".toList ∧
      (∀ r ∈ runsOf isNlCr "a\n\rb\r\nc".toList, utf8Len r ≤ utf8Len sep) ∧
      ((runsOf isNlCr "a\n\rb\r\nc".toList).filter
        (fun r => utf8Len r = utf8Len sep)).getLast? = some sep :=
  C6_amended_longest_nlcr_run_last_tie _ (by decide)

/-- Claim C7, amended: with no newline/carriage return present, the separator
is a SINGLE tab character when a tab is present (the tab pattern matches one
tab at a time, so runs are not considered); otherwise it is a SINGLE whitespace
character when any is present — one of maximal UTF-8 byte length, ties going to
the last occurrence. -/
theorem C7_amended_single_char_whitespace :
    (∀ text : List Char, text.any isNlCr = false → text.contains '\t' = true →
      split_text text = some (['\t'], true, splitOnSeq ['\t'] text)) ∧
    (∀ text : List Char, text.any isNlCr = false → text.contains '\t' = false →
      text.any isRegexSpace = true →
      ∃ ch : Char,
        split_text text = some ([ch], true, splitOnSeq [ch] text) ∧
        ch ∈ text ∧ isRegexSpace ch = true ∧
        (∀ c ∈ text, isRegexSpace c = true → charUtf8Size c ≤ charUtf8Size ch) ∧
        ((text.filter isRegexSpace).filter
          (fun c => charUtf8Size c = charUtf8Size ch)).getLast? = some ch) := by
  constructor
  · intro text h1 h2
    have hmem : '\t' ∈ text := by simpa using h2
    have hfil : '\t' ∈ text.filter (fun c => c = '\t') := List.mem_filter.2 ⟨hmem, by simp⟩
    have hcand : ['\t'] ∈ (text.filter (fun c => c = '\t')).map (fun c => [c]) :=
      List.mem_map.2 ⟨'\t', hfil, rfl⟩
    cases hm : maxByKeyLast utf8Len ((text.filter (fun c => c = '\t')).map (fun c => [c])) with
    | none =>
      have := maxByKeyLast_eq_none.1 hm
      rw [this] at hcand
      simp at hcand
    | some sep =>
      have hsep : sep = ['\t'] := by
        rcases List.mem_map.1 (maxByKeyLast_mem hm) with ⟨c, hc, hcs⟩
        have : c = '\t' := by simpa using (List.mem_filter.1 hc).2
        rw [← hcs, this]
      subst hsep
      unfold split_text
      rw [h1]
      rw [if_neg (by simp), h2, if_pos rfl, hm]
  · intro text h1 h2 h3
    rcases List.any_eq_true.1 h3 with ⟨c0, hc0, hc0s⟩
    have hfil0 : c0 ∈ text.filter isRegexSpace := List.mem_filter.2 ⟨hc0, hc0s⟩
    have hcand0 : [c0] ∈ (text.filter isRegexSpace).map (fun c => [c]) :=
      List.mem_map.2 ⟨c0, hfil0, rfl⟩
    cases hm : maxByKeyLast utf8Len ((text.filter isRegexSpace).map (fun c => [c])) with
    | none =>
      have := maxByKeyLast_eq_none.1 hm
      rw [this] at hcand0
      simp at hcand0
    | some sep =>
      rcases List.mem_map.1 (maxByKeyLast_mem hm) with ⟨ch, hch, hchs⟩
      refine ⟨ch, ?_, (List.mem_filter.1 hch).1, (List.mem_filter.1 hch).2, ?_, ?_⟩
      · unfold split_text
        rw [h1]
        rw [if_neg (by simp), h2]
        rw [if_neg (by simp), if_pos h3, hm, hchs]
      · intro c hc hcs
        have hcand : [c] ∈ (text.filter isRegexSpace).map (fun c => [c]) :=
          List.mem_map.2 ⟨c, List.mem_filter.2 ⟨hc, hcs⟩, rfl⟩
        have := maxByKeyLast_le hm _ hcand
        rw [← hchs] at this
        simpa [utf8Len_singleton] using this
      · have hlast := maxByKeyLast_getLast hm
        rw [← hchs] at hlast
        rw [filter_map_singleton] at hlast
        have heq : (text.filter isRegexSpace).filter (fun c => utf8Len [c] = utf8Len [ch]) =
            (text.filter isRegexSpace).filter (fun c => charUtf8Size c = charUtf8Size ch) := by
          apply List.filter_congr
          intro a _
          simp [utf8Len_singleton]
        rw [heq] at hlast
        cases hl : ((text.filter isRegexSpace).filter
            (fun c => charUtf8Size c = charUtf8Size ch)).getLast? with
        | none => rw [List.getLast?_map, hl] at hlast; simp at hlast
        | some d =>
          rw [List.getLast?_map, hl] at hlast
          simp at hlast
          rw [hlast]

/-- Witness for the amended claim C7: both branches at concrete spans — the
tab branch on `"a\t\tb"` and the whitespace branch on `"a b"`. -/
theorem C7_amended_witness :
    split_text "a\t\tb".toList = some (['\t'], true, splitOnSeq ['\t'] "a\t\tb".toList) ∧
    (∃ ch : Char,
      split_text "a b".toList = some ([ch], true, splitOnSeq [ch] "a b".toList) ∧
      ch ∈ "a b".toList ∧ isRegexSpace ch = true ∧
      (∀ c ∈ "a b".toList, isRegexSpace c = true → charUtf8Size c ≤ charUtf8Size ch) ∧
      (("a b".toList.filter isRegexSpace).filter
        (fun c => charUtf8Size c = charUtf8Size ch)).getLast? = some ch) :=
  ⟨C7_amended_single_char_whitespace.1 _ (by decide) (by decide),
   C7_amended_single_char_whitespace.2 _ (by decide) (by decide) (by decide)⟩

/-- `joinSep` with the empty separator is plain concatenation. -/
theorem joinSep_nil_sep : ∀ l : List (List Char), joinSep [] l = l.flatten := by
  intro l
  induction l with
  | nil => rfl
  | cons x xs ih =>
    cases xs with
    | nil => simp [joinSep]
    | cons y ys => simp only [joinSep] at ih ⊢; simp [ih]

/-- `joinSep` distributes over append of two non-empty piece lists. -/
theorem joinSep_append (sep : List Char) :
    ∀ l1 l2 : List (List Char), l1 ≠ [] → l2 ≠ [] →
      joinSep sep (l1 ++ l2) = joinSep sep l1 ++ sep ++ joinSep sep l2 := by
  intro l1
  induction l1 with
  | nil => intro l2 h1 _; exact absurd rfl h1
  | cons x xs ih =>
    intro l2 _ h2
    cases xs with
    | nil =>
      cases l2 with
      | nil => exact absurd rfl h2
      | cons y ys => simp [joinSep]
    | cons z zs =>
      have h3 := ih l2 (by simp) h2
      show x ++ sep ++ joinSep sep ((z :: zs) ++ l2) =
        x ++ sep ++ joinSep sep (z :: zs) ++ sep ++ joinSep sep l2
      rw [h3]
      simp [List.append_assoc]

/-- One piece appended on the right of a non-empty piece list. -/
theorem joinSep_concat (sep : List Char) (l : List (List Char)) (p : List Char) (h : l ≠ []) :
    joinSep sep (l ++ [p]) = joinSep sep l ++ sep ++ p :=
  joinSep_append sep l [p] h (by simp)

/-- A matched occurrence lets the text be rebuilt around the separator. -/
theorem seqStartsWith_decomp :
    ∀ sep t : List Char, seqStartsWith sep t = true → t = sep ++ t.drop sep.length := by
  intro sep
  induction sep with
  | nil => intro t _; simp
  | cons a as ih =>
    intro t h
    cases t with
    | nil => simp [seqStartsWith] at h
    | cons b bs =>
      simp only [seqStartsWith, Bool.and_eq_true, decide_eq_true_eq] at h
      obtain ⟨hab, hrest⟩ := h
      have := ih bs hrest
      simp [hab, List.drop_succ_cons]
      calc bs = as ++ bs.drop as.length := this
        _ = as ++ List.drop as.length bs := rfl

/-- A prefix occurrence is no longer than the text. -/
theorem seqStartsWith_length {sep t : List Char} (h : seqStartsWith sep t = true) :
    sep.length ≤ t.length := by
  have h2 : t.length = (sep ++ t.drop sep.length).length := by
    rw [← seqStartsWith_decomp sep t h]
  simp only [List.length_append] at h2
  omega

/-- `findSubIdx` finds a real occurrence: the text splits around it. -/
theorem findSubIdx_decomp :
    ∀ (text : List Char) (sep : List Char) (i : Nat), findSubIdx sep text = some i →
      text = text.take i ++ sep ++ text.drop (i + sep.length) := by
  intro text
  induction text with
  | nil =>
    intro sep i h
    simp only [findSubIdx] at h
    by_cases hs : seqStartsWith sep [] = true
    · rw [if_pos hs] at h
      injection h with h
      subst h
      cases sep with
      | nil => simp
      | cons a as => simp [seqStartsWith] at hs
    · rw [if_neg hs] at h; exact absurd h (by simp)
  | cons c rest ih =>
    intro sep i h
    simp only [findSubIdx] at h
    by_cases hs : seqStartsWith sep (c :: rest) = true
    · rw [if_pos hs] at h
      injection h with h
      subst h
      simpa using seqStartsWith_decomp sep (c :: rest) hs
    · rw [if_neg hs] at h
      cases hf : findSubIdx sep rest with
      | none => rw [hf] at h; exact absurd h (by simp)
      | some j =>
        rw [hf] at h
        simp only [Option.map_some'] at h
        injection h with h
        subst h
        have hrec := ih sep j hf
        calc c :: rest = c :: (rest.take j ++ sep ++ rest.drop (j + sep.length)) := by rw [← hrec]
          _ = (c :: rest).take (j + 1) ++ sep ++ (c :: rest).drop (j + 1 + sep.length) := by
              rw [List.take_succ_cons]
              have hidx : j + 1 + sep.length = (j + sep.length) + 1 := by omega
              rw [hidx, List.drop_succ_cons]
              simp

/-- An occurrence of `sep` lies inside the text. -/
theorem findSubIdx_bound :
    ∀ (text sep : List Char) (i : Nat), findSubIdx sep text = some i →
      i + sep.length ≤ text.length := by
  intro text
  induction text with
  | nil =>
    intro sep i h
    simp only [findSubIdx] at h
    by_cases hs : seqStartsWith sep [] = true
    · rw [if_pos hs] at h
      injection h with h
      subst h
      cases sep with
      | nil => simp
      | cons a as => simp [seqStartsWith] at hs
    · rw [if_neg hs] at h; exact absurd h (by simp)
  | cons c rest ih =>
    intro sep i h
    simp only [findSubIdx] at h
    by_cases hs : seqStartsWith sep (c :: rest) = true
    · rw [if_pos hs] at h
      injection h with h
      subst h
      simpa using seqStartsWith_length hs
    · rw [if_neg hs] at h
      cases hf : findSubIdx sep rest with
      | none => rw [hf] at h; exact absurd h (by simp)
      | some j =>
        rw [hf] at h
        simp only [Option.map_some'] at h
        injection h with h
        subst h
        have := ih sep j hf
        simp only [List.length_cons]
        omega

/-- `splitGo` never returns an empty piece list. -/
theorem splitGo_ne_nil (sep : List Char) : ∀ (fuel : Nat) (text : List Char),
    splitGo sep fuel text ≠ [] := by
  intro fuel text
  cases fuel with
  | zero => simp [splitGo]
  | succ n =>
    simp only [splitGo]
    cases findSubIdx sep text <;> simp

/-- Joining the pieces of `splitGo` with the separator rebuilds the text,
provided the fuel covers the text. -/
theorem joinSep_splitGo (sep : List Char) (hsep : sep ≠ []) :
    ∀ (fuel : Nat) (text : List Char), text.length + 1 ≤ fuel →
      joinSep sep (splitGo sep fuel text) = text := by
  intro fuel
  induction fuel with
  | zero => intro text h; exact absurd h (by omega)
  | succ n ih =>
    intro text hf
    simp only [splitGo]
    cases hfi : findSubIdx sep text with
    | none => rfl
    | some i =>
      have hdec := findSubIdx_decomp text sep i hfi
      have hbound := findSubIdx_bound text sep i hfi
      have hslen : 1 ≤ sep.length := by
        cases sep with
        | nil => exact absurd rfl hsep
        | cons a as => simp
      have hrest : (text.drop (i + sep.length)).length + 1 ≤ n := by
        simp only [List.length_drop]
        omega
      have hjoin := ih (text.drop (i + sep.length)) hrest
      cases hsg : splitGo sep n (text.drop (i + sep.length)) with
      | nil => exact absurd hsg (splitGo_ne_nil sep n _)
      | cons p ps =>
        dsimp only
        rw [hsg]
        rw [hsg] at hjoin
        show text.take i ++ sep ++ joinSep sep (p :: ps) = text
        rw [hjoin]
        exact hdec.symm

/-- Joining the pieces of `splitOnSeq` with the (non-empty) separator rebuilds
the text. -/
theorem joinSep_splitOnSeq (sep text : List Char) (hsep : sep ≠ []) :
    joinSep sep (splitOnSeq sep text) = text := by
  unfold splitOnSeq
  rw [if_neg (by simpa using hsep)]
  exact joinSep_splitGo sep hsep (text.length + 1) text (Nat.le_refl _)

/-- Characters of any `splitGo` piece come from the text. -/
theorem splitGo_chars (sep : List Char) : ∀ (fuel : Nat) (text p : List Char),
    p ∈ splitGo sep fuel text → ∀ ch ∈ p, ch ∈ text := by
  intro fuel
  induction fuel with
  | zero =>
    intro text p hp ch hch
    simp only [splitGo, List.mem_singleton] at hp
    exact hp ▸ hch
  | succ n ih =>
    intro text p hp ch hch
    simp only [splitGo] at hp
    cases hfi : findSubIdx sep text with
    | none =>
      rw [hfi] at hp
      simp only [List.mem_singleton] at hp
      exact hp ▸ hch
    | some i =>
      rw [hfi] at hp
      rcases List.mem_cons.1 hp with hp | hp
      · subst hp
        exact List.mem_of_mem_take hch
      · have := ih (text.drop (i + sep.length)) p hp ch hch
        exact List.mem_of_mem_drop this

/-- Characters of any `splitOnSeq` piece come from the text. -/
theorem splitOnSeq_chars {sep text p : List Char} (hp : p ∈ splitOnSeq sep text) :
    ∀ ch ∈ p, ch ∈ text := by
  unfold splitOnSeq at hp
  by_cases hs : sep.isEmpty
  · rw [if_pos hs] at hp
    simp only [List.mem_singleton] at hp
    intro ch hch
    exact hp ▸ hch
  · rw [if_neg hs] at hp
    exact splitGo_chars sep _ text p hp

/-- The empty text is whitespace-only. -/
theorem wsOnly_nil : wsOnly [] := by intro ch hch; simp at hch

/-- Whitespace-only texts concatenate. -/
theorem wsOnly_append {s t : List Char} (hs : wsOnly s) (ht : wsOnly t) : wsOnly (s ++ t) := by
  intro ch hch
  rcases List.mem_append.1 hch with h | h
  · exact hs ch h
  · exact ht ch h

/-- Whitespace filler may be prepended to a decomposition. -/
theorem Decomp.ws_prepend {pre t : List Char} {cs : List (List Char)}
    (hpre : wsOnly pre) (h : Decomp t cs) : Decomp (pre ++ t) cs := by
  cases h with
  | nil hp => exact Decomp.nil (wsOnly_append hpre hp)
  | @cons p chunk t2 cs2 hp hrest =>
    rw [← List.append_assoc]
    exact Decomp.cons (wsOnly_append hpre hp) hrest

/-- Whitespace filler may be appended to a decomposition. -/
theorem Decomp.ws_append {t s : List Char} {cs : List (List Char)}
    (h : Decomp t cs) (hs : wsOnly s) : Decomp (t ++ s) cs := by
  induction h with
  | nil hp => exact Decomp.nil (wsOnly_append hp hs)
  | @cons p chunk t2 cs2 hp hrest ih =>
    rw [List.append_assoc, List.append_assoc]
    exact Decomp.cons hp ih

/-- Decompositions concatenate. -/
theorem Decomp.append {t1 t2 : List Char} {cs1 cs2 : List (List Char)}
    (h1 : Decomp t1 cs1) (h2 : Decomp t2 cs2) : Decomp (t1 ++ t2) (cs1 ++ cs2) := by
  induction h1 with
  | nil hp => exact h2.ws_prepend hp
  | @cons p chunk tr csr hp hrest ih =>
    rw [List.append_assoc, List.append_assoc]
    exact Decomp.cons hp ih

/-- A single chunk decomposes its own text. -/
theorem Decomp.single (m : List Char) : Decomp m [m] := by
  have h := @Decomp.cons [] m [] [] wsOnly_nil (@Decomp.nil [] wsOnly_nil)
  simpa using h

/-- A concatenation is a decomposition with empty filler. -/
theorem Decomp.of_flatten : ∀ (cs : List (List Char)) {t : List Char}, cs.flatten = t →
    Decomp t cs := by
  intro cs
  induction cs with
  | nil =>
    intro t h
    rw [← h]
    exact Decomp.nil wsOnly_nil
  | cons x xs ih =>
    intro t h
    rw [← h]
    simp only [List.flatten_cons]
    have := @Decomp.cons [] x xs.flatten xs wsOnly_nil (ih rfl)
    simpa using this

/-- Dropping empty chunks preserves a decomposition. -/
theorem Decomp.filter_nonempty {t : List Char} {cs : List (List Char)} (h : Decomp t cs) :
    Decomp t (cs.filter (fun s => !s.isEmpty)) := by
  induction h with
  | nil hp => exact Decomp.nil hp
  | @cons p chunk tr csr hp hrest ih =>
    by_cases hc : chunk = []
    · subst hc
      simp only [List.filter_cons, List.isEmpty_nil, Bool.not_true, if_neg]
      simp only [List.nil_append]
      exact ih.ws_prepend hp
    · rw [List.filter_cons_of_pos (by simpa using hc)]
      exact Decomp.cons hp ih

/-- Flattening ignores dropped empty chunks. -/
theorem flatten_filter_nonempty : ∀ cs : List (List Char),
    (cs.filter (fun s => !s.isEmpty)).flatten = cs.flatten := by
  intro cs
  induction cs with
  | nil => rfl
  | cons x xs ih =>
    by_cases hx : x = []
    · subst hx
      simpa using ih
    · rw [List.filter_cons_of_pos (by simpa using hx)]
      simp [ih]

/-- The merge loop's result never exceeds the upper search bound. -/
theorem mergeLoopF_le (c : Chunker) (cum : List Nat) (splits : List (List Char))
    (sep : List Char) : ∀ (fuel low high num den : Nat), low ≤ high →
      mergeLoopF c cum splits sep fuel low high num den ≤ high := by
  intro fuel
  induction fuel with
  | zero => intro low high num den h; simpa [mergeLoopF] using h
  | succ n ih =>
    intro low high num den h
    simp only [mergeLoopF]
    by_cases hlt : low < high
    · rw [if_pos hlt]
      have hh1 : 1 ≤ high := by omega
      have hest : min (low + bisectLeft ((cum.drop low).take (high - low))
          (c.chunk_size * num / den)) (high - 1) ≤ high - 1 := Nat.min_le_right _ _
      have hestlow : low ≤ min (low + bisectLeft ((cum.drop low).take (high - low))
          (c.chunk_size * num / den)) (high - 1) := by
        refine Nat.le_min.2 ⟨Nat.le_add_right _ _, ?_⟩
        omega
      by_cases hgt : c.chunk_size < c.token_counter (joinSep sep (splits.take
          (min (low + bisectLeft ((cum.drop low).take (high - low))
            (c.chunk_size * num / den)) (high - 1))))
      · rw [if_pos hgt]
        exact Nat.le_trans (ih _ _ _ _ hestlow) (by omega)
      · rw [if_neg hgt]
        by_cases heq : c.token_counter (joinSep sep (splits.take
            (min (low + bisectLeft ((cum.drop low).take (high - low))
              (c.chunk_size * num / den)) (high - 1)))) = c.chunk_size
        · rw [if_pos heq]
          omega
        · rw [if_neg heq]
          exact ih _ _ _ _ (by omega)
    · rw [if_neg hlt]
      exact h

/-- The consumed count of `merge_splits` never exceeds the number of splits. -/
theorem merge_splits_fst_le (c : Chunker) (splits : List (List Char)) (sep : List Char) :
    (c.merge_splits splits sep).1 ≤ splits.length :=
  mergeLoopF_le c (cumLens splits) splits sep (splits.length + 1) 0 splits.length 5 1
    (Nat.zero_le _)

/-- The merged text of `merge_splits` is the join of the consumed prefix. -/
theorem merge_splits_snd (c : Chunker) (splits : List (List Char)) (sep : List Char) :
    (c.merge_splits splits sep).2 = joinSep sep (splits.take (c.merge_splits splits sep).1) :=
  rfl

/-- Newlines and carriage returns are regex whitespace. -/
theorem isNlCr_isRegexSpace {c : Char} (h : isNlCr c = true) : isRegexSpace c = true := by
  simp only [isNlCr, Bool.or_eq_true, decide_eq_true_eq] at h
  rcases h with h | h <;> subst h <;> decide

/-- Every run emitted by `runsAux` consists of matching characters and is
non-empty, provided the accumulator consists of matching characters. -/
theorem runsAux_mem {p : Char → Bool} : ∀ (l acc : List Char),
    (∀ ch ∈ acc, p ch = true) → ∀ r ∈ runsAux p acc l,
      (∀ ch ∈ r, p ch = true) ∧ r ≠ [] := by
  intro l
  induction l with
  | nil =>
    intro acc hacc r hr
    simp only [runsAux] at hr
    by_cases he : acc.isEmpty
    · rw [if_pos he] at hr; simp at hr
    · rw [if_neg he] at hr
      simp only [List.mem_singleton] at hr
      subst hr
      exact ⟨hacc, by simpa using he⟩
  | cons c rest ih =>
    intro acc hacc r hr
    simp only [runsAux] at hr
    by_cases hp : p c
    · rw [if_pos hp] at hr
      refine ih (acc ++ [c]) ?_ r hr
      intro ch hch
      rcases List.mem_append.1 hch with h | h
      · exact hacc ch h
      · simp only [List.mem_singleton] at h
        exact h ▸ hp
    · rw [if_neg hp] at hr
      by_cases he : acc.isEmpty
      · rw [if_pos he] at hr
        exact ih [] (by simp) r hr
      · rw [if_neg he] at hr
        rcases List.mem_cons.1 hr with h | h
        · subst h
          exact ⟨hacc, by simpa using he⟩
        · exact ih [] (by simp) r h

/-- Every maximal run consists of matching characters and is non-empty. -/
theorem runsOf_mem {p : Char → Bool} {l r : List Char} (h : r ∈ runsOf p l) :
    (∀ ch ∈ r, p ch = true) ∧ r ≠ [] :=
  runsAux_mem l [] (by simp) r h

/-- A text has at least as many bytes as characters. -/
theorem length_le_utf8Len : ∀ text : List Char, text.length ≤ utf8Len text := by
  intro text
  induction text with
  | nil => simp [utf8Len]
  | cons c rest ih =>
    simp only [utf8Len, List.map_cons, List.sum_cons, List.length_cons] at ih ⊢
    have : 1 ≤ charUtf8Size c := by
      unfold charUtf8Size
      repeat' split
      all_goals omega
    omega

/-- Flattening the one-character pieces of a text gives the text back. -/
theorem flatten_map_singleton : ∀ text : List Char,
    (text.map (fun c => [c])).flatten = text := by
  intro text
  induction text with
  | nil => rfl
  | cons c rest ih => simp [ih]

/-- The degenerate character split (with its off-by-byte-length slice, in the
non-panicking cases) still flattens to the text. -/
theorem degenerate_flatten {text : List Char} (h : utf8Len text ≤ text.length + 1) :
    ((text.map (fun c => [c]) ++ [([] : List Char)]).take (utf8Len text)).flatten = text := by
  have hge := length_le_utf8Len text
  rcases Nat.lt_or_ge (utf8Len text) (text.length + 1) with hlt | hge2
  · have heq : utf8Len text = text.length := by omega
    rw [heq, List.take_append_of_le_length (by simp)]
    rw [show text.length = (text.map (fun c => [c])).length by simp]
    rw [List.take_length, flatten_map_singleton]
  · have heq : utf8Len text = text.length + 1 := by omega
    rw [heq, List.take_of_length_le (by simp)]
    simp [flatten_map_singleton]

/-- Pieces of the degenerate character split have their characters in the
text. -/
theorem degenerate_chars {text p : List Char}
    (hp : p ∈ (text.map (fun c => [c]) ++ [([] : List Char)]).take (utf8Len text)) :
    ∀ ch ∈ p, ch ∈ text := by
  intro ch hch
  have hp2 := List.mem_of_mem_take hp
  rcases List.mem_append.1 hp2 with h | h
  · rcases List.mem_map.1 h with ⟨c, hc, hcs⟩
    rw [← hcs] at hch
    simp only [List.mem_singleton] at hch
    exact hch ▸ hc
  · simp only [List.mem_singleton] at h
    subst h
    simp at hch

/-- Case analysis of a successful `split_text`: a whitespace separator branch
(non-empty whitespace-only separator, literal split, some whitespace present),
the semantic branch (non-empty separator, whitespace-free text, literal split)
or the degenerate branch (empty separator, whitespace-free text, pieces
flattening back to the text, with characters from the text). -/
theorem split_text_spec {text sep : List Char} {ws : Bool} {splits : List (List Char)}
    (h : split_text text = some (sep, ws, splits)) :
    (ws = true ∧ sep ≠ [] ∧ wsOnly sep ∧ splits = splitOnSeq sep text ∧
      ∃ ch ∈ text, isRegexSpace ch = true) ∨
    (ws = false ∧ sep ≠ [] ∧ wsFree text ∧ splits = splitOnSeq sep text) ∨
    (ws = true ∧ sep = [] ∧ wsFree text ∧ splits.flatten = text ∧
      ∀ p ∈ splits, ∀ ch ∈ p, ch ∈ text) := by
  unfold split_text at h
  by_cases h1 : text.any isNlCr
  · rw [if_pos h1] at h
    cases hm : maxByKeyLast utf8Len (runsOf isNlCr text) with
    | none => rw [hm] at h; exact absurd h (by simp)
    | some m =>
      rw [hm] at h
      injection h with h
      have hsep : m = sep := congrArg Prod.fst h
      have hws : true = ws := congrArg Prod.fst (congrArg Prod.snd h)
      have hsplits : splitOnSeq m text = splits := congrArg Prod.snd (congrArg Prod.snd h)
      left
      have hmem := runsOf_mem (maxByKeyLast_mem hm)
      refine ⟨hws.symm, hsep ▸ hmem.2, hsep ▸ (fun ch hch => isNlCr_isRegexSpace (hmem.1 ch hch)),
        hsep ▸ hsplits.symm, ?_⟩
      · rcases List.any_eq_true.1 h1 with ⟨c, hc, hcs⟩
        exact ⟨c, hc, isNlCr_isRegexSpace hcs⟩
  · rw [if_neg h1] at h
    by_cases h2 : text.contains '\t'
    · rw [if_pos h2] at h
      cases hm : maxByKeyLast utf8Len ((text.filter (fun c => c = '\t')).map (fun c => [c])) with
      | none => rw [hm] at h; exact absurd h (by simp)
      | some m =>
        rw [hm] at h
        injection h with h
        have hsep : m = sep := congrArg Prod.fst h
        have hws : true = ws := congrArg Prod.fst (congrArg Prod.snd h)
        have hsplits : splitOnSeq m text = splits := congrArg Prod.snd (congrArg Prod.snd h)
        have hmtab : m = ['\t'] := by
          rcases List.mem_map.1 (maxByKeyLast_mem hm) with ⟨c, hc, hcs⟩
          have : c = '\t' := by simpa using (List.mem_filter.1 hc).2
          rw [← hcs, this]
        left
        refine ⟨hws.symm, hsep ▸ (by simp [hmtab]), ?_, hsep ▸ hsplits.symm, ?_⟩
        · rw [← hsep, hmtab]
          intro ch hch
          simp only [List.mem_singleton] at hch
          subst hch
          decide
        · exact ⟨'\t', by simpa using h2, by decide⟩
    · rw [if_neg h2] at h
      by_cases h3 : text.any isRegexSpace
      · rw [if_pos h3] at h
        cases hm : maxByKeyLast utf8Len ((text.filter isRegexSpace).map (fun c => [c])) with
        | none => rw [hm] at h; exact absurd h (by simp)
        | some m =>
          rw [hm] at h
          injection h with h
          have hsep : m = sep := congrArg Prod.fst h
          have hws : true = ws := congrArg Prod.fst (congrArg Prod.snd h)
          have hsplits : splitOnSeq m text = splits := congrArg Prod.snd (congrArg Prod.snd h)
          rcases List.mem_map.1 (maxByKeyLast_mem hm) with ⟨c, hc, hcs⟩
          left
          refine ⟨hws.symm, hsep ▸ (by rw [← hcs]; simp), ?_, hsep ▸ hsplits.symm, ?_⟩
          · rw [← hsep, ← hcs]
            intro ch hch
            simp only [List.mem_singleton] at hch
            subst hch
            exact (List.mem_filter.1 hc).2
          · rcases List.any_eq_true.1 h3 with ⟨c2, hc2, hcs2⟩
            exact ⟨c2, hc2, hcs2⟩
      · rw [if_neg h3] at h
        have hwsfree : wsFree text := by
          intro ch hch
          by_contra hcon
          exact h3 (List.any_eq_true.2 ⟨ch, hch, by simpa using hcon⟩)
        cases hf : NON_WHITESPACE_SEMANTIC_SEPARATORS.find? (fun c => text.contains c) with
        | some c =>
          rw [hf] at h
          injection h with h
          have hsep : [c] = sep := congrArg Prod.fst h
          have hws : false = ws := congrArg Prod.fst (congrArg Prod.snd h)
          have hsplits : splitOnSeq [c] text = splits := congrArg Prod.snd (congrArg Prod.snd h)
          right; left
          exact ⟨hws.symm, hsep ▸ (by simp), hwsfree, hsep ▸ hsplits.symm⟩
        | none =>
          rw [hf] at h
          by_cases h4 : utf8Len text + 1 ≤ (([[]] ++ text.map (fun c => [c]) ++ [[]] :
              List (List Char))).length
          · rw [if_pos h4] at h
            injection h with h
            have hsep : ([] : List Char) = sep := congrArg Prod.fst h
            have hws : true = ws := congrArg Prod.fst (congrArg Prod.snd h)
            have hsplits : ((([[]] ++ text.map (fun c => [c]) ++ [[]] :
                List (List Char))).drop 1).take (utf8Len text) = splits :=
              congrArg Prod.snd (congrArg Prod.snd h)
            have hdrop : ((([[]] ++ text.map (fun c => [c]) ++ [[]] :
                List (List Char))).drop 1) = text.map (fun c => [c]) ++ [[]] := by
              simp
            rw [hdrop] at hsplits
            have hlen : utf8Len text ≤ text.length + 1 := by
              simp only [List.length_append, List.length_map, List.length_cons,
                List.length_nil] at h4
              omega
            right; right
            refine ⟨hws.symm, hsep.symm, hwsfree, ?_, ?_⟩
            · rw [← hsplits]
              exact degenerate_flatten hlen
            · intro p hp
              rw [← hsplits] at hp
              exact degenerate_chars hp
          · rw [if_neg h4] at h
            exact absurd h (by simp)

/-- Taking one more element appends the element at the index. -/
theorem take_succ_getD : ∀ (l : List (List Char)) (i : Nat), i < l.length →
    l.take (i + 1) = l.take i ++ [l.getD i []] := by
  intro l
  induction l with
  | nil => intro i h; simp at h
  | cons x xs ih =>
    intro i h
    cases i with
    | zero => simp
    | succ j =>
      simp only [List.take_succ_cons, List.getD_cons_succ]
      rw [ih j (by simpa using h)]
      simp

/-- The defaulted element at a valid index is a member. -/
theorem getD_mem : ∀ (l : List (List Char)) (i : Nat), i < l.length → l.getD i [] ∈ l := by
  intro l
  induction l with
  | nil => intro i h; simp at h
  | cons x xs ih =>
    intro i h
    cases i with
    | zero => simp
    | succ j =>
      simp only [List.getD_cons_succ]
      exact List.mem_cons_of_mem x (ih j (by simpa using h))

/-- `joinSep` of a longer prefix splits at an interior position. -/
theorem joinSep_take_add (sep : List Char) {l : List (List Char)} {i n : Nat} (hi1 : 1 ≤ i)
    (hi2 : i < l.length) (hn : 1 ≤ n) :
    joinSep sep (l.take (i + n)) =
      joinSep sep (l.take i) ++ sep ++ joinSep sep ((l.drop i).take n) := by
  rw [List.take_add]
  apply joinSep_append
  · have hlen : (l.take i).length = min i l.length := List.length_take ..
    intro hcon
    rw [hcon] at hlen
    simp only [List.length_nil] at hlen
    omega
  · have hlen : ((l.drop i).take n).length = min n (l.drop i).length := List.length_take ..
    rw [List.length_drop] at hlen
    intro hcon
    rw [hcon] at hlen
    simp only [List.length_nil] at hlen
    omega

/-- When the adaptive merge consumes nothing, the assembly loop never advances
and exhausts any fuel (the non-whitespace boundary step never panics here
because a chunk was just pushed). -/
theorem go_stuck (c : Chunker) (sep : List Char) (splits : List (List Char)) (d i : Nat)
    (hi : i < splits.length)
    (hctr : ¬ c.chunk_size < c.token_counter (splits.getD i []))
    (hn : (c.merge_splits (splits.drop i) sep).1 = 0) :
    ∀ (fuel : Nat) (acc : List (List Char)),
      chunkRun c fuel (.go sep false splits d i acc) = .error .fuel := by
  intro fuel
  induction fuel with
  | zero =>
    intro acc
    simp [chunkRun, hi]
  | succ n ihf =>
    intro acc
    simp only [chunkRun, if_pos hi, if_neg hctr, hn, Nat.add_zero]
    have hlast : (acc ++ [(c.merge_splits (splits.drop i) sep).2]).getLast? =
        some (c.merge_splits (splits.drop i) sep).2 := by
      simp
    rw [if_pos (show True ∧ i < splits.length from ⟨trivial, hi⟩), hlast]
    dsimp only
    by_cases hatt : c.token_counter ((c.merge_splits (splits.drop i) sep).2 ++ sep) ≤
        c.chunk_size
    · rw [if_pos hatt]
      exact ihf _
    · rw [if_neg hatt]
      exact ihf _

/-- A list is its front with its last element re-attached. -/
theorem getLast?_dropLast_concat : ∀ {l : List (List Char)} {x : List Char},
    l.getLast? = some x → l.dropLast ++ [x] = l := by
  intro l
  induction l with
  | nil => intro x h; simp at h
  | cons a as ih =>
    intro x h
    cases as with
    | nil =>
      simp only [List.getLast?_singleton] at h
      injection h with h
      subst h
      rfl
    | cons b bs =>
      rw [List.getLast?_cons_cons] at h
      have := ih h
      simp only [List.dropLast_cons₂, List.cons_append]
      rw [this]

/-- Re-attaching a separator to the last chunk extends the flattening. -/
theorem flatten_attach {l : List (List Char)} {x s : List Char} (h : l.getLast? = some x) :
    (l.dropLast ++ [x ++ s]).flatten = l.flatten ++ s := by
  conv_rhs => rw [← getLast?_dropLast_concat h]
  simp

/-- Flattening a longer prefix splits at an interior position. -/
theorem flatten_take_add (l : List (List Char)) (i n : Nat) :
    (l.take (i + n)).flatten = (l.take i).flatten ++ ((l.drop i).take n).flatten := by
  rw [List.take_add, List.flatten_append]

/-- Combined invariant of the chunk run, by induction on the fuel: a successful
`_chunk` entry decomposes its text (exactly, when the text is whitespace-free);
the assembly loop preserves the corresponding prefix invariants for a
whitespace separator (`Decomp`) and for the exact non-whitespace/degenerate
case (flattening). -/
theorem recon_aux : ∀ fuel : Nat,
    (∀ (c : Chunker) (text : List Char) (d : Nat) (cs : List (List Char)),
        chunkRun c fuel (.top text d) = .ok cs →
        Decomp text cs ∧ (wsFree text → cs.flatten = text)) ∧
    (∀ (c : Chunker) (sep : List Char) (splits : List (List Char)) (d i : Nat)
        (acc cs : List (List Char)),
        wsOnly sep → sep ≠ [] → i ≤ splits.length →
        Decomp (joinSep sep (splits.take i)) acc →
        chunkRun c fuel (.go sep true splits d i acc) = .ok cs →
        Decomp (joinSep sep splits) cs) ∧
    (∀ (c : Chunker) (sep : List Char) (ws : Bool) (splits : List (List Char)) (d i : Nat)
        (acc cs : List (List Char)),
        (ws = false ∨ sep = []) →
        (∀ p ∈ splits, wsFree p) →
        i ≤ splits.length →
        acc.flatten = joinSep sep (splits.take i) ++
          (if 0 < i ∧ i < splits.length then sep else []) →
        chunkRun c fuel (.go sep ws splits d i acc) = .ok cs →
        cs.flatten = joinSep sep splits) := by
  intro fuel
  induction fuel with
  | zero =>
    refine ⟨?_, ?_, ?_⟩
    · intro c text d cs h
      exact absurd h (by simp [chunkRun])
    · intro c sep splits d i acc cs hws hsepne hle hdec h
      simp only [chunkRun] at h
      by_cases hi : i < splits.length
      · rw [if_pos hi] at h; exact absurd h (by simp)
      · rw [if_neg hi] at h
        injection h with h
        subst h
        have hieq : i = splits.length := by omega
        subst hieq
        rw [List.take_length] at hdec
        exact hdec
    · intro c sep ws splits d i acc cs hwsep hpieces hle hflat h
      simp only [chunkRun] at h
      by_cases hi : i < splits.length
      · rw [if_pos hi] at h; exact absurd h (by simp)
      · rw [if_neg hi] at h
        injection h with h
        subst h
        have hieq : i = splits.length := by omega
        subst hieq
        rw [List.take_length, if_neg (by omega), List.append_nil] at hflat
        exact hflat
  | succ n ih =>
    obtain ⟨ihTop, ihGoW, ihGoS⟩ := ih
    refine ⟨?_, ?_, ?_⟩
    · -- the _chunk entry
      intro c text d cs h
      simp only [chunkRun] at h
      cases hsp : split_text text with
      | none => rw [hsp] at h; exact absurd h (by simp)
      | some val =>
        obtain ⟨sep, ws, splits⟩ := val
        rw [hsp] at h
        dsimp only at h
        cases hrun : chunkRun c n (.go sep ws splits d 0 []) with
        | error e => rw [hrun] at h; exact absurd h (by simp)
        | ok l =>
          rw [hrun] at h
          dsimp only at h
          injection h with h
          rcases split_text_spec hsp with ⟨hws, hsepne, hwsonly, hsplits, ch, hch, hchs⟩ |
            ⟨hws, hsepne, hfree, hsplits⟩ | ⟨hws, hsep0, hfree, hflat, hchars⟩
          · subst hws
            subst hsplits
            have hgo := ihGoW c sep (splitOnSeq sep text) d 0 [] l hwsonly hsepne
              (Nat.zero_le _) (Decomp.nil wsOnly_nil) hrun
            rw [joinSep_splitOnSeq sep text hsepne] at hgo
            constructor
            · subst h
              by_cases hd : 0 < d
              · rw [if_pos hd]; exact hgo.filter_nonempty
              · rw [if_neg hd]; exact hgo
            · intro hfree
              exact absurd (hfree ch hch) (by simp [hchs])
          · subst hws
            subst hsplits
            have hpieces : ∀ p ∈ splitOnSeq sep text, wsFree p := fun p hp ch2 hch2 =>
              hfree ch2 (splitOnSeq_chars hp ch2 hch2)
            have hgo := ihGoS c sep false (splitOnSeq sep text) d 0 [] l (Or.inl rfl) hpieces
              (Nat.zero_le _) (by simp [joinSep]) hrun
            rw [joinSep_splitOnSeq sep text hsepne] at hgo
            have hcs : cs.flatten = text := by
              subst h
              by_cases hd : 0 < d
              · rw [if_pos hd, flatten_filter_nonempty]; exact hgo
              · rw [if_neg hd]; exact hgo
            exact ⟨Decomp.of_flatten cs hcs, fun _ => hcs⟩
          · subst hws
            subst hsep0
            have hpieces : ∀ p ∈ splits, wsFree p := fun p hp ch2 hch2 =>
              hfree ch2 (hchars p hp ch2 hch2)
            have hgo := ihGoS c [] true splits d 0 [] l (Or.inr rfl) hpieces (Nat.zero_le _)
              (by simp [joinSep]) hrun
            rw [joinSep_nil_sep, hflat] at hgo
            have hcs : cs.flatten = text := by
              subst h
              by_cases hd : 0 < d
              · rw [if_pos hd, flatten_filter_nonempty]; exact hgo
              · rw [if_neg hd]; exact hgo
            exact ⟨Decomp.of_flatten cs hcs, fun _ => hcs⟩
    · -- the assembly loop with a whitespace separator
      intro c sep splits d i acc cs hws hsepne hle hdec h
      simp only [chunkRun] at h
      by_cases hi : i < splits.length
      · rw [if_pos hi] at h
        by_cases hc : c.chunk_size < c.token_counter (splits.getD i [])
        · rw [if_pos hc] at h
          cases hsub : chunkRun c n (.top (splits.getD i []) (d + 1)) with
          | error e => rw [hsub] at h; dsimp only at h; exact absurd h (by simp)
          | ok sub =>
            rw [hsub] at h
            dsimp only at h
            rw [if_neg (by simp)] at h
            have hpiece := (ihTop c (splits.getD i []) (d + 1) sub hsub).1
            have hdec2 : Decomp (joinSep sep (splits.take (i + 1))) (acc ++ sub) := by
              rw [take_succ_getD splits i hi]
              rcases Nat.eq_zero_or_pos i with h0 | hpos
              · subst h0
                have := hdec.append hpiece
                simpa [joinSep] using this
              · have htkne : splits.take i ≠ [] := by
                  intro hcon
                  have hcon2 := congrArg List.length hcon
                  simp only [List.length_take, List.length_nil] at hcon2
                  omega
                rw [joinSep_concat sep _ _ htkne]
                have := hdec.append (hpiece.ws_prepend hws)
                simpa [List.append_assoc] using this
            exact ihGoW c sep splits d (i + 1) (acc ++ sub) cs hws hsepne (by omega) hdec2 h
        · rw [if_neg hc] at h
          dsimp only at h
          rw [if_neg (by simp)] at h
          have hrle : (c.merge_splits (splits.drop i) sep).1 ≤ splits.length - i := by
            have := merge_splits_fst_le c (splits.drop i) sep
            simpa using this
          have hdec2 : Decomp
              (joinSep sep (splits.take (i + (c.merge_splits (splits.drop i) sep).1)))
              (acc ++ [(c.merge_splits (splits.drop i) sep).2]) := by
            rcases Nat.eq_zero_or_pos (c.merge_splits (splits.drop i) sep).1 with h0 | hpos
            · rw [h0, Nat.add_zero]
              have hr2 : (c.merge_splits (splits.drop i) sep).2 = [] := by
                rw [merge_splits_snd, h0]
                rfl
              rw [hr2]
              have := hdec.append (Decomp.single [])
              simpa using this
            · rcases Nat.eq_zero_or_pos i with hi0 | hipos
              · subst hi0
                rw [Nat.zero_add]
                have hr2 : (c.merge_splits (splits.drop 0) sep).2 =
                    joinSep sep (splits.take (c.merge_splits (splits.drop 0) sep).1) := by
                  rw [merge_splits_snd, List.drop_zero]
                have := hdec.append (Decomp.single ((c.merge_splits (splits.drop 0) sep).2))
                rw [hr2] at this
                simpa [joinSep] using this
              · rw [joinSep_take_add sep hipos hi hpos, ← merge_splits_snd]
                have := hdec.append
                  ((Decomp.single ((c.merge_splits (splits.drop i) sep).2)).ws_prepend hws)
                simpa [List.append_assoc] using this
          exact ihGoW c sep splits d (i + (c.merge_splits (splits.drop i) sep).1)
            (acc ++ [(c.merge_splits (splits.drop i) sep).2]) cs hws hsepne (by omega) hdec2 h
      · rw [if_neg hi] at h
        injection h with h
        subst h
        have hieq : i = splits.length := by omega
        subst hieq
        rw [List.take_length] at hdec
        exact hdec
    · -- the assembly loop in the exact cases
      intro c sep ws splits d i acc cs hwsep hpieces hle hflat h
      rcases hwsep with hwsf | hsep0
      · -- non-whitespace separator
        subst hwsf
        have horig := h
        simp only [chunkRun] at h
        by_cases hi : i < splits.length
        · rw [if_pos hi] at h
          by_cases hc : c.chunk_size < c.token_counter (splits.getD i [])
          · rw [if_pos hc] at h
            cases hsub : chunkRun c n (.top (splits.getD i []) (d + 1)) with
            | error e => rw [hsub] at h; dsimp only at h; exact absurd h (by simp)
            | ok sub =>
              rw [hsub] at h
              dsimp only at h
              have hsubfl : sub.flatten = splits.getD i [] :=
                (ihTop c (splits.getD i []) (d + 1) sub hsub).2
                  (hpieces _ (getD_mem splits i hi))
              have hstep : (acc ++ sub).flatten = joinSep sep (splits.take (i + 1)) := by
                rw [List.flatten_append, hflat, hsubfl, take_succ_getD splits i hi]
                rcases Nat.eq_zero_or_pos i with h0 | hpos
                · subst h0
                  simp [joinSep]
                · have htkne : splits.take i ≠ [] := by
                    intro hcon
                    have hcon2 := congrArg List.length hcon
                    simp only [List.length_take, List.length_nil] at hcon2
                    omega
                  rw [joinSep_concat sep _ _ htkne, if_pos ⟨hpos, hi⟩]
              by_cases hb : i + 1 < splits.length
              · rw [if_pos (show True ∧ i + 1 < splits.length from ⟨trivial, hb⟩)] at h
                cases hg : (acc ++ sub).getLast? with
                | none => rw [hg] at h; exact absurd h (by simp)
                | some last =>
                  rw [hg] at h
                  dsimp only at h
                  by_cases hat : c.token_counter (last ++ sep) ≤ c.chunk_size
                  · rw [if_pos hat] at h
                    refine ihGoS c sep false splits d (i + 1) _ cs (Or.inl rfl) hpieces
                      (by omega) ?_ h
                    rw [flatten_attach hg, hstep, if_pos ⟨by omega, hb⟩]
                  · rw [if_neg hat] at h
                    refine ihGoS c sep false splits d (i + 1) _ cs (Or.inl rfl) hpieces
                      (by omega) ?_ h
                    rw [show ((acc ++ sub) ++ [sep]).flatten = (acc ++ sub).flatten ++ sep by
                      simp]
                    rw [hstep, if_pos ⟨by omega, hb⟩]
              · rw [if_neg (by simp [hb])] at h
                refine ihGoS c sep false splits d (i + 1) (acc ++ sub) cs (Or.inl rfl) hpieces
                  (by omega) ?_ h
                rw [hstep, if_neg (by omega), List.append_nil]
          · by_cases hr0 : (c.merge_splits (splits.drop i) sep).1 = 0
            · rw [go_stuck c sep splits d i hi hc hr0 (n + 1) acc] at horig
              exact absurd horig (by simp)
            · rw [if_neg hc] at h
              dsimp only at h
              have hrle : (c.merge_splits (splits.drop i) sep).1 ≤ splits.length - i := by
                have := merge_splits_fst_le c (splits.drop i) sep
                simpa using this
              have hstep : (acc ++ [(c.merge_splits (splits.drop i) sep).2]).flatten =
                  joinSep sep (splits.take (i + (c.merge_splits (splits.drop i) sep).1)) := by
                rw [List.flatten_append, hflat]
                simp only [List.flatten_cons, List.flatten_nil, List.append_nil]
                rcases Nat.eq_zero_or_pos i with h0 | hpos
                · subst h0
                  rw [Nat.zero_add, merge_splits_snd, List.drop_zero]
                  simp [joinSep]
                · rw [if_pos ⟨hpos, hi⟩,
                    joinSep_take_add sep hpos hi (by omega), ← merge_splits_snd]
              by_cases hb : i + (c.merge_splits (splits.drop i) sep).1 < splits.length
              · rw [if_pos (show True ∧ _ from ⟨trivial, hb⟩)] at h
                have hg : (acc ++ [(c.merge_splits (splits.drop i) sep).2]).getLast? =
                    some (c.merge_splits (splits.drop i) sep).2 := by simp
                rw [hg] at h
                dsimp only at h
                by_cases hat : c.token_counter ((c.merge_splits (splits.drop i) sep).2 ++ sep) ≤
                    c.chunk_size
                · rw [if_pos hat] at h
                  refine ihGoS c sep false splits d (i + (c.merge_splits (splits.drop i) sep).1)
                    _ cs (Or.inl rfl) hpieces (by omega) ?_ h
                  rw [flatten_attach hg, hstep, if_pos ⟨by omega, hb⟩]
                · rw [if_neg hat] at h
                  refine ihGoS c sep false splits d (i + (c.merge_splits (splits.drop i) sep).1)
                    _ cs (Or.inl rfl) hpieces (by omega) ?_ h
                  rw [show ((acc ++ [(c.merge_splits (splits.drop i) sep).2]) ++ [sep]).flatten =
                      (acc ++ [(c.merge_splits (splits.drop i) sep).2]).flatten ++ sep by simp]
                  rw [hstep, if_pos ⟨by omega, hb⟩]
              · rw [if_neg (by simp [hb])] at h
                refine ihGoS c sep false splits d (i + (c.merge_splits (splits.drop i) sep).1)
                  (acc ++ [(c.merge_splits (splits.drop i) sep).2]) cs (Or.inl rfl) hpieces
                  (by omega) ?_ h
                rw [hstep, if_neg (by omega), List.append_nil]
        · rw [if_neg hi] at h
          injection h with h
          subst h
          have hieq : i = splits.length := by omega
          subst hieq
          rw [List.take_length, if_neg (by omega), List.append_nil] at hflat
          exact hflat
      · -- degenerate empty separator
        subst hsep0
        rw [joinSep_nil_sep, ite_self, List.append_nil] at hflat
        simp only [chunkRun] at h
        by_cases hi : i < splits.length
        · rw [if_pos hi] at h
          by_cases hc : c.chunk_size < c.token_counter (splits.getD i [])
          · rw [if_pos hc] at h
            cases hsub : chunkRun c n (.top (splits.getD i []) (d + 1)) with
            | error e => rw [hsub] at h; dsimp only at h; exact absurd h (by simp)
            | ok sub =>
              rw [hsub] at h
              dsimp only at h
              have hsubfl : sub.flatten = splits.getD i [] :=
                (ihTop c (splits.getD i []) (d + 1) sub hsub).2
                  (hpieces _ (getD_mem splits i hi))
              have hstep : (acc ++ sub).flatten = (splits.take (i + 1)).flatten := by
                rw [List.flatten_append, hflat, hsubfl, take_succ_getD splits i hi]
                simp
              have hinv : ∀ acc2 : List (List Char),
                  acc2.flatten = (splits.take (i + 1)).flatten →
                  acc2.flatten = joinSep [] (splits.take (i + 1)) ++
                    (if 0 < i + 1 ∧ i + 1 < splits.length then [] else []) := by
                intro acc2 h2
                rw [joinSep_nil_sep, ite_self, List.append_nil]
                exact h2
              by_cases hb : ws = false ∧ i + 1 < splits.length
              · rw [if_pos hb] at h
                cases hg : (acc ++ sub).getLast? with
                | none => rw [hg] at h; exact absurd h (by simp)
                | some last =>
                  rw [hg] at h
                  dsimp only at h
                  by_cases hat : c.token_counter (last ++ []) ≤ c.chunk_size
                  · rw [if_pos hat] at h
                    refine ihGoS c [] ws splits d (i + 1) _ cs (Or.inr rfl) hpieces
                      (by omega) (hinv _ ?_) h
                    rw [flatten_attach hg, hstep, List.append_nil]
                  · rw [if_neg hat] at h
                    refine ihGoS c [] ws splits d (i + 1) _ cs (Or.inr rfl) hpieces
                      (by omega) (hinv _ ?_) h
                    rw [show ((acc ++ sub) ++ [([] : List Char)]).flatten =
                        (acc ++ sub).flatten by simp]
                    exact hstep
              · rw [if_neg hb] at h
                exact ihGoS c [] ws splits d (i + 1) (acc ++ sub) cs (Or.inr rfl) hpieces
                  (by omega) (hinv _ hstep) h
          · rw [if_neg hc] at h
            dsimp only at h
            have hrle : (c.merge_splits (splits.drop i) []).1 ≤ splits.length - i := by
              have := merge_splits_fst_le c (splits.drop i) []
              simpa using this
            have hstep : (acc ++ [(c.merge_splits (splits.drop i) []).2]).flatten =
                (splits.take (i + (c.merge_splits (splits.drop i) []).1)).flatten := by
              rw [List.flatten_append, hflat]
              simp only [List.flatten_cons, List.flatten_nil, List.append_nil]
              rw [merge_splits_snd, joinSep_nil_sep, flatten_take_add]
            have hinv : ∀ acc2 : List (List Char),
                acc2.flatten = (splits.take (i + (c.merge_splits (splits.drop i) []).1)).flatten →
                acc2.flatten = joinSep [] (splits.take (i + (c.merge_splits (splits.drop i) []).1))
                  ++ (if 0 < i + (c.merge_splits (splits.drop i) []).1 ∧
                    i + (c.merge_splits (splits.drop i) []).1 < splits.length then [] else []) := by
              intro acc2 h2
              rw [joinSep_nil_sep, ite_self, List.append_nil]
              exact h2
            by_cases hb : ws = false ∧ i + (c.merge_splits (splits.drop i) []).1 < splits.length
            · rw [if_pos hb] at h
              have hg : (acc ++ [(c.merge_splits (splits.drop i) []).2]).getLast? =
                  some (c.merge_splits (splits.drop i) []).2 := by simp
              rw [hg] at h
              dsimp only at h
              by_cases hat : c.token_counter ((c.merge_splits (splits.drop i) []).2 ++ []) ≤
                  c.chunk_size
              · rw [if_pos hat] at h
                refine ihGoS c [] ws splits d (i + (c.merge_splits (splits.drop i) []).1) _ cs
                  (Or.inr rfl) hpieces (by omega) (hinv _ ?_) h
                rw [flatten_attach hg, hstep, List.append_nil]
              · rw [if_neg hat] at h
                refine ihGoS c [] ws splits d (i + (c.merge_splits (splits.drop i) []).1) _ cs
                  (Or.inr rfl) hpieces (by omega) (hinv _ ?_) h
                rw [show ((acc ++ [(c.merge_splits (splits.drop i) []).2]) ++
                    [([] : List Char)]).flatten =
                    (acc ++ [(c.merge_splits (splits.drop i) []).2]).flatten by simp]
                exact hstep
            · rw [if_neg hb] at h
              exact ihGoS c [] ws splits d (i + (c.merge_splits (splits.drop i) []).1)
                (acc ++ [(c.merge_splits (splits.drop i) []).2]) cs (Or.inr rfl) hpieces
                (by omega) (hinv _ hstep) h
        · rw [if_neg hi] at h
          injection h with h
          subst h
          have hieq : i = splits.length := by omega
          subst hieq
          rw [List.take_length] at hflat
          rw [joinSep_nil_sep]
          exact hflat

/-- Claim C5: for every input text, the chunks returned by `chunk` reproduce
the text exactly once the chosen separators are folded back in at the chunk
boundaries: the text decomposes as the chunks in order with only
whitespace-separator material at the boundaries (`Decomp`), and when the text
contains no whitespace at all — so every separator is re-attached or emitted —
plain concatenation of the chunks is already the exact text.  Empty fragments
dropped at recursion depth > 0 cost nothing textually; only boundary
whitespace needs re-inserting. -/
theorem C5_reconstruction_decomposition :
    ∀ (c : Chunker) (fuel : Nat) (text : List Char) (cs : List (List Char)),
      c.chunk fuel text = .ok cs →
      Decomp text cs ∧ (wsFree text → cs.flatten = text) :=
  fun c fuel text cs h => (recon_aux fuel).1 c text 0 cs h

/-- Witness for claim C5: the reconstruction theorem applied to the concrete
run of `"a."`, whose chunks `["a", ".", ""]` decompose the text. -/
theorem C5_witness :
    Decomp "a.".toList ["a".toList, ".".toList, []] ∧
    (wsFree "a.".toList → (["a".toList, ".".toList, []] : List (List Char)).flatten =
      "a.".toList) :=
  C5_reconstruction_decomposition chunkerLen1 20 "a.".toList ["a".toList, ".".toList, []] rfl
